import Mathlib

/-!
Shallow embedding of the bijective base-6 codec from `src/mymath.cpp` and
`src/mymath_cpp.cpp`.

Both files implement the same two operations over C++ `long long`
(modelled as `Int`; for the inputs handled without signalling an error the
C arithmetic stays inside nonnegative values, where truncating division
and remainder coincide with `Nat` division and remainder):

* encode (`to_bijective_base6_impl` / `to_bijective_base6_cpp`): guard
  `n <= 0`, then a `while (n > 0)` loop doing `n--; r = n % 6; n = n / 6`
  and appending `"123456"[r]`, finally reversing the accumulated string;
* decode (`from_bijective_base6_impl` / `from_bijective_base6_cpp`): fold
  `n = n * 6 + pos + 1` over the characters, where `pos` is
  `std::string("123456").find(c)`, failing when the character is absent.
  The accumulator is a signed 64-bit `long long`, so each assignment is
  modelled with two's-complement wraparound (`wrap64`): on long enough
  inputs the fold overflows and the wrapped value is returned as a
  success.

Failure in the C++ code is `PyErr_SetString(PyExc_ValueError, msg)`
followed by the wrapper returning `NULL`; the wrapped operations therefore
return either a value or an error carrying a message, modelled with
`Except Err`.  The spec's error taxonomy (`InvalidInput`,
`InvalidCharacter`, `EmptyInput`) names the three distinct guard sites, so
`Err` has one constructor per site, each carrying the exact message string
from the source.

The encode `while` loop is embedded with an explicit fuel argument (fuel
`m` suffices because the loop variable strictly decreases), which keeps
the definition computable by `decide`; the theorems `encodeLoop_succ` /
`encodeLoopCpp_succ` prove that the fueled definition satisfies exactly
the loop's step equation.
-/

namespace Shortlink

/-- The digit alphabet `"123456"`, shared by both source files
(`const char* chars` in `mymath.cpp`, `const std::string ALPHABET` in
`mymath_cpp.cpp`). -/
def ALPHABET : List Char := ['1', '2', '3', '4', '5', '6']

/-- Error outcomes of the wrapped operations.  Constructors follow the
spec's taxonomy (one per guard site in the source); the `msg` field holds
the exact `PyErr_SetString` message of that site. -/
inductive Err where
  | invalidInput (msg : String)
  | invalidCharacter (msg : String)
  | emptyInput (msg : String)
  deriving DecidableEq, Repr

deriving instance DecidableEq for Except

/-- Model of `std::string::find(c)` on a character list: index of the
first occurrence, `none` for `npos`. -/
def strFind (c : Char) : List Char → Option Nat
  | [] => none
  | a :: as => if a == c then some 0 else (strFind c as).map (· + 1)

/-- Position of a character in the alphabet: `chars.find(s[i])` /
`ALPHABET.find(c)` in the source. -/
def charPos (c : Char) : Option Nat := strFind c ALPHABET

/-- The encode `while` loop of `to_bijective_base6_impl`
(`src/mymath.cpp` lines 16-22), producing the digit characters least
significant first, with explicit fuel (first argument): one iteration
takes `m` to `(m - 1) / 6` and emits `chars[(m - 1) % 6]`. -/
def encodeLoopF (fuel m : Nat) : List Char :=
  match m, fuel with
  | 0, _ => []
  | _ + 1, 0 => []
  | m + 1, f + 1 => ALPHABET.getD (m % 6) ' ' :: encodeLoopF f (m / 6)

/-- The encode loop of `src/mymath.cpp` run to completion: fuel `m` is
enough since the loop variable strictly decreases (see
`encodeLoop_succ`). -/
def encodeLoop (m : Nat) : List Char := encodeLoopF m m

/-- `to_bijective_base6_impl` from `src/mymath.cpp` (lines 8-25) combined
with its wrapper's `PyErr_Occurred` check: on `n <= 0` the error is
signalled and no result is produced; otherwise the loop output is
reversed into the result string. -/
def to_bijective_base6_impl (n : Int) : Except Err String :=
  if n ≤ 0 then .error (.invalidInput "Input must be a positive integer")
  else .ok (String.mk (encodeLoop n.toNat).reverse)

/-- Two's-complement wraparound of a signed 64-bit `long long`: the value
of the C++ assignment `n = e` once `e` is reduced modulo `2^64` into
`[-2^63, 2^63)`.  (In the source, `n * 6 + pos + 1` is computed in 64-bit
machine arithmetic — `pos` is a `size_t` — so each assignment stores the
mathematical value of the right-hand side wrapped modulo `2^64`.) -/
def wrap64 (x : Int) : Int := (x + 2 ^ 63) % 2 ^ 64 - 2 ^ 63

/-- The decode loop of `from_bijective_base6_impl` (`src/mymath.cpp`
lines 31-38): fold `n = n * 6 + pos + 1` over the characters, failing on
a character not found in the alphabet.  The accumulator is a `long long`,
so each assignment wraps (`wrap64`). -/
def decodeLoop : Int → List Char → Except Err Int
  | a, [] => .ok a
  | a, c :: cs =>
    match charPos c with
    | none => .error (.invalidCharacter "Invalid character in short code")
    | some pos => decodeLoop (wrap64 (a * 6 + pos + 1)) cs

/-- `from_bijective_base6_impl` from `src/mymath.cpp` (lines 27-40)
combined with its wrapper's `PyErr_Occurred` check: the accumulator
starts at 0 and there is no emptiness guard. -/
def from_bijective_base6_impl (s : String) : Except Err Int :=
  decodeLoop 0 s.data

/-- The encode `while` loop of `to_bijective_base6_cpp`
(`src/mymath_cpp.cpp` lines 23-29), textually the same algorithm as in
`mymath.cpp` (`BASE` is 6 and `ALPHABET` is `"123456"`), again with
explicit fuel. -/
def encodeLoopCppF (fuel m : Nat) : List Char :=
  match m, fuel with
  | 0, _ => []
  | _ + 1, 0 => []
  | m + 1, f + 1 => ALPHABET.getD (m % 6) ' ' :: encodeLoopCppF f (m / 6)

/-- The encode loop of `src/mymath_cpp.cpp` run to completion. -/
def encodeLoopCpp (m : Nat) : List Char := encodeLoopCppF m m

/-- `to_bijective_base6_cpp` from `src/mymath_cpp.cpp` (lines 11-33):
guard `n <= 0` with its own message, then the same loop and reversal. -/
def to_bijective_base6_cpp (n : Int) : Except Err String :=
  if n ≤ 0 then
    .error (.invalidInput "Input must be a positive integer for bijective conversion.")
  else .ok (String.mk (encodeLoopCpp n.toNat).reverse)

/-- The decode loop of `from_bijective_base6_cpp` (`src/mymath_cpp.cpp`
lines 48-56), same fold as in `mymath.cpp` with a different error
message, again over a wrapping 64-bit accumulator. -/
def decodeLoopCpp : Int → List Char → Except Err Int
  | a, [] => .ok a
  | a, c :: cs =>
    match charPos c with
    | none =>
      .error (.invalidCharacter "Invalid character in short code. Only \x271\x27-\x276\x27 are allowed.")
    | some pos => decodeLoopCpp (wrap64 (a * 6 + pos + 1)) cs

/-- `from_bijective_base6_cpp` from `src/mymath_cpp.cpp` (lines 36-59):
an explicit emptiness guard, then the fold from accumulator 0. -/
def from_bijective_base6_cpp (s : String) : Except Err Int :=
  if s.data.isEmpty then .error (.emptyInput "Input string cannot be empty.")
  else decodeLoopCpp 0 s.data

/-- Two wrapped outcomes agree when they succeed with the same value or
both fail (the message may differ): the sense in which the two source
variants "return the same result". -/
def sameOutcome {α : Type} [BEq α] (x y : Except Err α) : Bool :=
  match x, y with
  | .ok a, .ok b => a == b
  | .error _, .error _ => true
  | .ok _, .error _ => false
  | .error _, .ok _ => false

/-- Digit value (1..6) of an alphabet character, for analysis of the
decode fold. -/
def dval (c : Char) : Nat := (charPos c).getD 0 + 1

/-- Pure value of a code over digit values, most significant first: the
decode fold without error handling. -/
def codeValAux : Nat → List Char → Nat
  | a, [] => a
  | a, c :: cs => codeValAux (a * 6 + dval c) cs

/-- Numeric value denoted by a (valid) code. -/
def codeVal (L : List Char) : Nat := codeValAux 0 L

/-- Value of the length-`k` code `"11...1"`: the smallest value of any
length-`k` code, satisfying `5 * repunitVal k + 1 = 6 ^ k`. -/
def repunitVal : Nat → Nat
  | 0 => 0
  | k + 1 => 6 * repunitVal k + 1

/-- Lexicographic strict order on equal-length character lists (symbol
order on the first differing position). -/
def lexLtb : List Char → List Char → Bool
  | _, [] => false
  | [], _ :: _ => true
  | a :: as, b :: bs => a < b || (a == b && lexLtb as bs)

/-- Shortlex strict order on codes: shorter length first, then symbol
order within equal length. -/
def shortlexLtb (s t : List Char) : Bool :=
  s.length < t.length || (s.length == t.length && lexLtb s t)

/-! ### Helper lemmas about the encode loop -/

theorem encodeLoopF_zero (f : Nat) : encodeLoopF f 0 = [] := by
  cases f <;> rfl

theorem encodeLoopCppF_zero (f : Nat) : encodeLoopCppF f 0 = [] := by
  cases f <;> rfl

theorem encodeLoopF_congr (m : Nat) :
    ∀ f1 f2 : Nat, m ≤ f1 → m ≤ f2 → encodeLoopF f1 m = encodeLoopF f2 m := by
  induction m using Nat.strong_induction_on with
  | _ m ih =>
    intro f1 f2 h1 h2
    match m, f1, f2 with
    | 0, f1, f2 => rw [encodeLoopF_zero, encodeLoopF_zero]
    | m + 1, f1 + 1, f2 + 1 =>
      show _ :: encodeLoopF f1 (m / 6) = _ :: encodeLoopF f2 (m / 6)
      have hd : m / 6 < m + 1 := Nat.lt_succ_of_le (Nat.div_le_self m 6)
      have hf1 : m / 6 ≤ f1 := le_trans (Nat.div_le_self m 6) (Nat.lt_succ_iff.mp h1)
      have hf2 : m / 6 ≤ f2 := le_trans (Nat.div_le_self m 6) (Nat.lt_succ_iff.mp h2)
      rw [ih (m / 6) hd f1 f2 hf1 hf2]

theorem encodeLoop_succ (m : Nat) :
    encodeLoop (m + 1) = ALPHABET.getD (m % 6) ' ' :: encodeLoop (m / 6) := by
  show encodeLoopF (m + 1) (m + 1) = _
  show ALPHABET.getD (m % 6) ' ' :: encodeLoopF m (m / 6) = _
  rw [encodeLoopF_congr (m / 6) m (m / 6) (Nat.div_le_self m 6) le_rfl]
  rfl

theorem encodeLoopCppF_congr (m : Nat) :
    ∀ f1 f2 : Nat, m ≤ f1 → m ≤ f2 → encodeLoopCppF f1 m = encodeLoopCppF f2 m := by
  induction m using Nat.strong_induction_on with
  | _ m ih =>
    intro f1 f2 h1 h2
    match m, f1, f2 with
    | 0, f1, f2 => rw [encodeLoopCppF_zero, encodeLoopCppF_zero]
    | m + 1, f1 + 1, f2 + 1 =>
      show _ :: encodeLoopCppF f1 (m / 6) = _ :: encodeLoopCppF f2 (m / 6)
      have hd : m / 6 < m + 1 := Nat.lt_succ_of_le (Nat.div_le_self m 6)
      have hf1 : m / 6 ≤ f1 := le_trans (Nat.div_le_self m 6) (Nat.lt_succ_iff.mp h1)
      have hf2 : m / 6 ≤ f2 := le_trans (Nat.div_le_self m 6) (Nat.lt_succ_iff.mp h2)
      rw [ih (m / 6) hd f1 f2 hf1 hf2]

theorem encodeLoopCpp_succ (m : Nat) :
    encodeLoopCpp (m + 1) = ALPHABET.getD (m % 6) ' ' :: encodeLoopCpp (m / 6) := by
  show encodeLoopCppF (m + 1) (m + 1) = _
  show ALPHABET.getD (m % 6) ' ' :: encodeLoopCppF m (m / 6) = _
  rw [encodeLoopCppF_congr (m / 6) m (m / 6) (Nat.div_le_self m 6) le_rfl]
  rfl

theorem encodeLoopCpp_eq_encodeLoop (m : Nat) : encodeLoopCpp m = encodeLoop m := by
  induction m using Nat.strong_induction_on with
  | _ m ih =>
    match m with
    | 0 => rfl
    | m + 1 =>
      rw [encodeLoop_succ, encodeLoopCpp_succ,
        ih (m / 6) (Nat.lt_succ_of_le (Nat.div_le_self m 6))]

theorem encodeLoop_ne_nil (m : Nat) (h : 1 ≤ m) : encodeLoop m ≠ [] := by
  match m, h with
  | m + 1, _ => rw [encodeLoop_succ]; exact List.cons_ne_nil _ _

theorem charPos_getD (r : Nat) (h : r < 6) : charPos (ALPHABET.getD r ' ') = some r := by
  interval_cases r <;> rfl

/-! ### Helper lemmas about the decode loop and the pure value function -/

theorem wrap64_eq_self {x : Int} (h1 : 0 ≤ x) (h2 : x < 2 ^ 63) : wrap64 x = x := by
  rw [wrap64]
  omega

theorem dval_getD (r : Nat) (h : r < 6) : dval (ALPHABET.getD r ' ') = r + 1 := by
  rw [dval, charPos_getD r h]
  rfl

theorem codeValAux_append (xs : List Char) :
    ∀ (ys : List Char) (a : Nat),
      codeValAux a (xs ++ ys) = codeValAux (codeValAux a xs) ys := by
  induction xs with
  | nil => intro ys a; rfl
  | cons c cs ih =>
    intro ys a
    show codeValAux a (c :: (cs ++ ys)) = _
    rw [codeValAux, codeValAux]
    exact ih ys (a * 6 + dval c)

theorem codeValAux_encodeLoop (m : Nat) :
    ∀ a : Nat,
      codeValAux a (encodeLoop m).reverse = a * 6 ^ (encodeLoop m).length + m := by
  induction m using Nat.strong_induction_on with
  | _ m ih =>
    intro a
    match m with
    | 0 =>
      show a = _
      norm_num [encodeLoop, encodeLoopF]
    | m + 1 =>
      rw [encodeLoop_succ, List.reverse_cons, codeValAux_append,
        ih (m / 6) (Nat.lt_succ_of_le (Nat.div_le_self m 6)) a]
      show codeValAux _ [ALPHABET.getD (m % 6) ' '] = _
      rw [codeValAux, codeValAux, dval_getD (m % 6) (Nat.mod_lt _ (by norm_num))]
      have key : 6 * (m / 6) + m % 6 = m := by omega
      rw [List.length_cons]
      calc (a * 6 ^ (encodeLoop (m / 6)).length + m / 6) * 6 + (m % 6 + 1)
          = a * (6 ^ (encodeLoop (m / 6)).length * 6) + (6 * (m / 6) + m % 6) + 1 := by
            ring
        _ = a * 6 ^ ((encodeLoop (m / 6)).length + 1) + (m + 1) := by
            rw [key, pow_succ, Nat.add_assoc]

theorem codeValAux_ge : ∀ (L : List Char) (a : Nat), a ≤ codeValAux a L := by
  intro L
  induction L with
  | nil => intro a; exact le_rfl
  | cons c cs ih =>
    intro a
    rw [codeValAux]
    have := ih (a * 6 + dval c)
    omega

theorem decodeLoop_ok_valid : ∀ (L : List Char) (a r : Int),
    decodeLoop a L = .ok r → ∀ c ∈ L, (charPos c).isSome := by
  intro L
  induction L with
  | nil => intro a r _ c hc; cases hc
  | cons c cs ih =>
    intro a r h d hd
    rw [decodeLoop] at h
    cases hcp : charPos c with
    | none => rw [hcp] at h; cases h
    | some pos =>
      rw [hcp] at h
      rcases List.mem_cons.mp hd with rfl | hmem
      · rw [hcp]; rfl
      · exact ih _ r h d hmem

theorem decodeLoop_cpp_agree : ∀ (L : List Char) (a : Int),
    sameOutcome (decodeLoop a L) (decodeLoopCpp a L) = true := by
  intro L
  induction L with
  | nil => intro a; simp [decodeLoop, decodeLoopCpp, sameOutcome]
  | cons c cs ih =>
    intro a
    rw [decodeLoop, decodeLoopCpp]
    cases charPos c with
    | none => rfl
    | some pos => exact ih (wrap64 (a * 6 + pos + 1))

theorem decodeLoopCpp_ok (L : List Char) (a r : Int) (h : decodeLoopCpp a L = .ok r) :
    decodeLoop a L = .ok r := by
  have hs := decodeLoop_cpp_agree L a
  rw [h] at hs
  cases hd : decodeLoop a L with
  | ok b =>
    rw [hd] at hs
    simp only [sameOutcome, beq_iff_eq] at hs
    rw [hs]
  | error e =>
    rw [hd] at hs
    simp [sameOutcome] at hs

theorem decodeLoop_bad : ∀ (L : List Char) (a : Int), (∃ c ∈ L, charPos c = none) →
    decodeLoop a L = .error (.invalidCharacter "Invalid character in short code") := by
  intro L
  induction L with
  | nil =>
    intro a h
    rcases h with ⟨c, hc, _⟩
    cases hc
  | cons c cs ih =>
    intro a h
    rw [decodeLoop]
    cases hcp : charPos c with
    | none => rfl
    | some pos =>
      rcases h with ⟨d, hd, hdn⟩
      rcases List.mem_cons.mp hd with rfl | hmem
      · rw [hcp] at hdn; cases hdn
      · exact ih _ ⟨d, hmem, hdn⟩

theorem decodeLoopCpp_bad : ∀ (L : List Char) (a : Int), (∃ c ∈ L, charPos c = none) →
    decodeLoopCpp a L =
      .error (.invalidCharacter
        "Invalid character in short code. Only \x271\x27-\x276\x27 are allowed.") := by
  intro L
  induction L with
  | nil =>
    intro a h
    rcases h with ⟨c, hc, _⟩
    cases hc
  | cons c cs ih =>
    intro a h
    rw [decodeLoopCpp]
    cases hcp : charPos c with
    | none => rfl
    | some pos =>
      rcases h with ⟨d, hd, hdn⟩
      rcases List.mem_cons.mp hd with rfl | hmem
      · rw [hcp] at hdn; cases hdn
      · exact ih _ ⟨d, hmem, hdn⟩

theorem decodeLoop_good : ∀ (L : List Char) (a : Int), (∀ c ∈ L, (charPos c).isSome) →
    ∃ r, decodeLoop a L = .ok r := by
  intro L
  induction L with
  | nil => intro a _; exact ⟨a, rfl⟩
  | cons c cs ih =>
    intro a h
    rw [decodeLoop]
    cases hcp : charPos c with
    | none =>
      have := h c (List.mem_cons_self c cs)
      rw [hcp] at this
      cases this
    | some pos => exact ih _ fun d hd => h d (List.mem_cons_of_mem c hd)

theorem decodeLoopCpp_good : ∀ (L : List Char) (a : Int), (∀ c ∈ L, (charPos c).isSome) →
    ∃ r, decodeLoopCpp a L = .ok r := by
  intro L
  induction L with
  | nil => intro a _; exact ⟨a, rfl⟩
  | cons c cs ih =>
    intro a h
    rw [decodeLoopCpp]
    cases hcp : charPos c with
    | none =>
      have := h c (List.mem_cons_self c cs)
      rw [hcp] at this
      cases this
    | some pos => exact ih _ fun d hd => h d (List.mem_cons_of_mem c hd)

/-! ### Alphabet characters and digit values -/

theorem strFind_some_lt (c : Char) : ∀ (L : List Char) (i : Nat),
    strFind c L = some i → i < L.length := by
  intro L
  induction L with
  | nil => intro i h; cases h
  | cons a as ih =>
    intro i h
    rw [strFind] at h
    by_cases hac : a == c
    · rw [if_pos hac] at h
      injection h with h
      rw [← h, List.length_cons]
      exact Nat.succ_pos _
    · rw [if_neg hac] at h
      cases hs : strFind c as with
      | none => rw [hs] at h; cases h
      | some j =>
        rw [hs] at h
        injection h with h
        rw [← h, List.length_cons]
        exact Nat.succ_lt_succ (ih j hs)

theorem strFind_some_mem (c : Char) : ∀ L : List Char,
    (strFind c L).isSome → c ∈ L := by
  intro L
  induction L with
  | nil => intro h; cases h
  | cons a as ih =>
    intro h
    rw [strFind] at h
    by_cases hac : a == c
    · exact List.mem_cons.mpr (Or.inl (eq_of_beq hac).symm)
    · rw [if_neg hac] at h
      cases hs : strFind c as with
      | none => rw [hs] at h; cases h
      | some j =>
        exact List.mem_cons_of_mem a (ih (by rw [hs]; rfl))

theorem dval_bounds (c : Char) (h : (charPos c).isSome) : 1 ≤ dval c ∧ dval c ≤ 6 := by
  obtain ⟨pos, hpos⟩ := Option.isSome_iff_exists.mp h
  have hlt := strFind_some_lt c ALPHABET pos hpos
  rw [dval, hpos]
  simp only [ALPHABET, List.length_cons, List.length_nil] at hlt
  simp only [Option.getD_some]
  omega

theorem encodeLoop_valid (m : Nat) : ∀ c ∈ encodeLoop m, (charPos c).isSome := by
  induction m using Nat.strong_induction_on with
  | _ m ih =>
    match m with
    | 0 => intro c hc; cases hc
    | m + 1 =>
      intro c hc
      rw [encodeLoop_succ] at hc
      rcases List.mem_cons.mp hc with rfl | hmem
      · rw [charPos_getD (m % 6) (Nat.mod_lt _ (by norm_num))]; rfl
      · exact ih (m / 6) (Nat.lt_succ_of_le (Nat.div_le_self m 6)) c hmem

theorem decodeLoop_eq_codeValAux : ∀ (L : List Char) (b : Nat),
    (∀ c ∈ L, (charPos c).isSome) → codeValAux b L < 2 ^ 63 →
    decodeLoop (b : Int) L = .ok ((codeValAux b L : Nat) : Int) := by
  intro L
  induction L with
  | nil => intro b _ _; rfl
  | cons c cs ih =>
    intro b h hb
    rw [codeValAux] at hb
    rw [decodeLoop, codeValAux]
    cases hcp : charPos c with
    | none =>
      have := h c (List.mem_cons_self c cs)
      rw [hcp] at this
      cases this
    | some pos =>
      have hdv : dval c = pos + 1 := by rw [dval, hcp]; rfl
      have hb6 : b * 6 + dval c < 2 ^ 63 :=
        lt_of_le_of_lt (codeValAux_ge cs (b * 6 + dval c)) hb
      have hcast : ((b : Int) * 6 + pos + 1) = ((b * 6 + dval c : Nat) : Int) := by
        rw [hdv]; push_cast; ring
      show decodeLoop (wrap64 ((b : Int) * 6 + pos + 1)) cs = _
      rw [hcast, wrap64_eq_self (Int.natCast_nonneg _) (by exact_mod_cast hb6)]
      exact ih (b * 6 + dval c) (fun d hd => h d (List.mem_cons_of_mem c hd)) hb

/-! ### The numeric value of a valid code -/

theorem codeVal_cons (c : Char) (cs : List Char) :
    codeVal (c :: cs) = codeValAux (dval c) cs := by
  rw [codeVal, codeValAux, Nat.zero_mul, Nat.zero_add]

theorem codeValAux_split : ∀ (L : List Char) (a : Nat),
    codeValAux a L = a * 6 ^ L.length + codeVal L := by
  intro L
  induction L with
  | nil => intro a; rw [codeValAux]; rw [codeVal, codeValAux]; simp
  | cons c cs ih =>
    intro a
    rw [codeValAux, ih (a * 6 + dval c), codeVal_cons, ih (dval c),
      List.length_cons, pow_succ]
    ring

theorem repunit_pow (k : Nat) : 5 * repunitVal k + 1 = 6 ^ k := by
  induction k with
  | zero => rfl
  | succ k ih => rw [repunitVal, pow_succ, ← ih]; ring

theorem repunit_mono : Monotone repunitVal := by
  apply monotone_nat_of_le_succ
  intro n
  rw [repunitVal]
  omega

theorem codeVal_bounds : ∀ L : List Char, (∀ c ∈ L, (charPos c).isSome) →
    repunitVal L.length ≤ codeVal L ∧ codeVal L ≤ 6 * repunitVal L.length := by
  intro L
  induction L with
  | nil =>
    intro _
    constructor <;> simp [codeVal, codeValAux, repunitVal]
  | cons c cs ih =>
    intro h
    have hd := dval_bounds c (h c (List.mem_cons_self c cs))
    have hcs := ih fun d hd => h d (List.mem_cons_of_mem c hd)
    have hpow := repunit_pow cs.length
    rw [codeVal_cons, codeValAux_split, List.length_cons, repunitVal]
    have hlow : 1 * 6 ^ cs.length ≤ dval c * 6 ^ cs.length :=
      Nat.mul_le_mul_right _ hd.1
    have hhigh : dval c * 6 ^ cs.length ≤ 6 * 6 ^ cs.length :=
      Nat.mul_le_mul_right _ hd.2
    constructor
    · have := hcs.1
      omega
    · have := hcs.2
      omega

theorem codeVal_encodeLoop (m : Nat) : codeVal (encodeLoop m).reverse = m := by
  rw [codeVal, codeValAux_encodeLoop m 0, Nat.zero_mul, Nat.zero_add]

/-! ### Shortlex order versus numeric value -/

theorem dval_lt_of_char_lt (a b : Char) (ha : (charPos a).isSome)
    (hb : (charPos b).isSome) (h : a < b) : dval a < dval b := by
  have ha2 : a ∈ ['1', '2', '3', '4', '5', '6'] := strFind_some_mem a ALPHABET ha
  have hb2 : b ∈ ['1', '2', '3', '4', '5', '6'] := strFind_some_mem b ALPHABET hb
  fin_cases ha2 <;> fin_cases hb2 <;> revert h <;> decide

theorem lexLtb_strictMono : ∀ L1 L2 : List Char, L1.length = L2.length →
    (∀ c ∈ L1, (charPos c).isSome) → (∀ c ∈ L2, (charPos c).isSome) →
    lexLtb L1 L2 = true → codeVal L1 < codeVal L2 := by
  intro L1
  induction L1 with
  | nil =>
    intro L2 hlen _ _ hlex
    cases L2 with
    | nil => cases hlex
    | cons b bs => cases hlen
  | cons a as ih =>
    intro L2 hlen h1 h2 hlex
    cases L2 with
    | nil => cases hlex
    | cons b bs =>
      have hlen2 : as.length = bs.length := by simpa using hlen
      have hva : (charPos a).isSome := h1 a (List.mem_cons_self a as)
      have hvb : (charPos b).isSome := h2 b (List.mem_cons_self b bs)
      have hvas : ∀ c ∈ as, (charPos c).isSome :=
        fun c hc => h1 c (List.mem_cons_of_mem a hc)
      have hvbs : ∀ c ∈ bs, (charPos c).isSome :=
        fun c hc => h2 c (List.mem_cons_of_mem b hc)
      rw [lexLtb] at hlex
      rw [codeVal_cons, codeVal_cons, codeValAux_split, codeValAux_split, hlen2]
      rw [Bool.or_eq_true] at hlex
      rcases hlex with hab | hrest
      · have hd : dval a < dval b := dval_lt_of_char_lt a b hva hvb (of_decide_eq_true hab)
        have hbounds_a := (codeVal_bounds as hvas).2
        have hbounds_b := (codeVal_bounds bs hvbs).1
        have hpow := repunit_pow bs.length
        have hmul : (dval a + 1) * 6 ^ bs.length ≤ dval b * 6 ^ bs.length :=
          Nat.mul_le_mul_right _ hd
        have hexp : (dval a + 1) * 6 ^ bs.length = dval a * 6 ^ bs.length + 6 ^ bs.length := by
          ring
        rw [hlen2] at hbounds_a
        omega
      · rw [Bool.and_eq_true] at hrest
        rcases hrest with ⟨haeq, htail⟩
        have hab : a = b := eq_of_beq haeq
        have := ih bs hlen2 hvas hvbs htail
        rw [hab]
        omega

theorem lexLtb_total : ∀ L1 L2 : List Char, L1.length = L2.length → L1 ≠ L2 →
    lexLtb L1 L2 = true ∨ lexLtb L2 L1 = true := by
  intro L1
  induction L1 with
  | nil =>
    intro L2 hlen hne
    cases L2 with
    | nil => exact absurd rfl hne
    | cons b bs => cases hlen
  | cons a as ih =>
    intro L2 hlen hne
    cases L2 with
    | nil => cases hlen
    | cons b bs =>
      rcases lt_trichotomy a b with h | h | h
      · left; rw [lexLtb]; simp [h]
      · subst h
        have hne2 : as ≠ bs := fun he => hne (by rw [he])
        rcases ih bs (by simpa using hlen) hne2 with ht | ht
        · left; rw [lexLtb]; simp [ht]
        · right; rw [lexLtb]; simp [ht]
      · right; rw [lexLtb]; simp [h]

theorem codeVal_shortlex_mono (L1 L2 : List Char)
    (h1 : ∀ c ∈ L1, (charPos c).isSome) (h2 : ∀ c ∈ L2, (charPos c).isSome)
    (h : shortlexLtb L1 L2 = true) : codeVal L1 < codeVal L2 := by
  rw [shortlexLtb] at h
  rw [Bool.or_eq_true] at h
  rcases h with hlt | heq
  · have hlen : L1.length < L2.length := of_decide_eq_true hlt
    calc codeVal L1 ≤ 6 * repunitVal L1.length := (codeVal_bounds L1 h1).2
      _ < repunitVal (L1.length + 1) := by rw [repunitVal]; omega
      _ ≤ repunitVal L2.length := repunit_mono hlen
      _ ≤ codeVal L2 := (codeVal_bounds L2 h2).1
  · rw [Bool.and_eq_true] at heq
    rcases heq with ⟨hlen, hlex⟩
    exact lexLtb_strictMono L1 L2 (beq_iff_eq.mp hlen) h1 h2 hlex

/-! ### Bridge lemmas between the wrapped operations and the loops -/

theorem to_impl_ok (n : Int) (h : 1 ≤ n) :
    to_bijective_base6_impl n = .ok (String.mk (encodeLoop n.toNat).reverse) := by
  rw [to_bijective_base6_impl, if_neg (by omega : ¬ n ≤ 0)]

theorem to_cpp_ok (n : Int) (h : 1 ≤ n) :
    to_bijective_base6_cpp n = .ok (String.mk (encodeLoop n.toNat).reverse) := by
  rw [to_bijective_base6_cpp, if_neg (by omega : ¬ n ≤ 0), encodeLoopCpp_eq_encodeLoop]

theorem rev_encode_valid (m : Nat) :
    ∀ c ∈ (encodeLoop m).reverse, (charPos c).isSome :=
  fun c hc => encodeLoop_valid m c (List.mem_reverse.mp hc)

theorem rev_encode_ne_nil (m : Nat) (h : 1 ≤ m) : (encodeLoop m).reverse ≠ [] := by
  intro he
  rw [List.reverse_eq_nil_iff] at he
  exact encodeLoop_ne_nil m h he

theorem decodeLoop_encode_ok (n : Int) (h : 1 ≤ n) (hb : n < 2 ^ 63) :
    decodeLoop 0 (encodeLoop n.toNat).reverse = .ok n := by
  have hv := rev_encode_valid n.toNat
  have hcv : codeValAux 0 (encodeLoop n.toNat).reverse = n.toNat :=
    codeVal_encodeLoop n.toNat
  have hlt : codeValAux 0 (encodeLoop n.toNat).reverse < 2 ^ 63 := by
    rw [hcv]
    omega
  have hh := decodeLoop_eq_codeValAux (encodeLoop n.toNat).reverse 0 hv hlt
  rw [hcv, show ((0 : Nat) : Int) = 0 from rfl] at hh
  rw [hh, Int.toNat_of_nonneg (by omega : (0 : Int) ≤ n)]

theorem decodeLoopCpp_encode_ok (n : Int) (h : 1 ≤ n) (hb : n < 2 ^ 63) :
    decodeLoopCpp 0 (encodeLoop n.toNat).reverse = .ok n := by
  obtain ⟨r, hr⟩ :=
    decodeLoopCpp_good (encodeLoop n.toNat).reverse 0 (rev_encode_valid n.toNat)
  have h2 := decodeLoopCpp_ok _ 0 r hr
  rw [decodeLoop_encode_ok n h hb] at h2
  injection h2 with h2
  rw [hr, h2]

theorem isEmpty_false_of_ne_nil {L : List Char} (h : L ≠ []) : L.isEmpty = false := by
  cases L with
  | nil => exact absurd rfl h
  | cons c cs => rfl

theorem from_cpp_of_ne_nil (s : String) (h : s.data ≠ []) :
    from_bijective_base6_cpp s = decodeLoopCpp 0 s.data := by
  rw [from_bijective_base6_cpp, isEmpty_false_of_ne_nil h]
  rfl

theorem string_eq_empty_of_data (s : String) (h : s.data = []) : s = "" := by
  cases s with
  | mk data =>
    subst h
    rfl

theorem data_ne_nil_of_ne_empty (s : String) (h : s ≠ "") : s.data ≠ [] :=
  fun hd => h (string_eq_empty_of_data s hd)

theorem from_cpp_mk (L : List Char) (h : L ≠ []) :
    from_bijective_base6_cpp (String.mk L) = decodeLoopCpp 0 L := by
  cases L with
  | nil => exact absurd rfl h
  | cons c cs => rfl

/-! ### Claim theorems -/

/-- Claim C1: for every integer `n` with `1 ≤ n ≤ 10_000_000`, decoding
the string produced by encode returns `n`, in both source variants
(`decode(encode(n)) = n`). -/
theorem C1_roundtrip (n : Int) (h1 : 1 ≤ n) (h2 : n ≤ 10000000) :
    (∃ s, to_bijective_base6_impl n = .ok s ∧ from_bijective_base6_impl s = .ok n) ∧
    (∃ s, to_bijective_base6_cpp n = .ok s ∧ from_bijective_base6_cpp s = .ok n) := by
  refine ⟨⟨String.mk (encodeLoop n.toNat).reverse, to_impl_ok n h1, ?_⟩,
    ⟨String.mk (encodeLoop n.toNat).reverse, to_cpp_ok n h1, ?_⟩⟩
  · show decodeLoop 0 (encodeLoop n.toNat).reverse = .ok n
    exact decodeLoop_encode_ok n h1 (by omega)
  · rw [from_cpp_mk _ (rev_encode_ne_nil n.toNat (by omega))]
    exact decodeLoopCpp_encode_ok n h1 (by omega)

/-- Witness for C1 at `n = 123`. -/
theorem C1_roundtrip_w :
    (∃ s, to_bijective_base6_impl 123 = .ok s ∧
      from_bijective_base6_impl s = .ok 123) ∧
    (∃ s, to_bijective_base6_cpp 123 = .ok s ∧
      from_bijective_base6_cpp s = .ok 123) :=
  C1_roundtrip 123 (by decide) (by decide)

/-- Claim C2 as stated is false at the concrete input 0: encode(0) fails,
but the error message is "Input must be a positive integer" (capital I;
the `mymath_cpp.cpp` variant further appends " for bijective
conversion."), not "input must be a positive integer". -/
theorem C2_cex :
    to_bijective_base6_impl 0 ≠
      .error (.invalidInput "input must be a positive integer") ∧
    to_bijective_base6_cpp 0 ≠
      .error (.invalidInput "input must be a positive integer") := by
  constructor <;> decide

/-- Claim C2 (amended): for every `n ≤ 0`, encode fails with an
`InvalidInput` error and produces no result — the message being "Input
must be a positive integer" in `mymath.cpp` and "Input must be a positive
integer for bijective conversion." in `mymath_cpp.cpp` — in particular
encode(0) and encode(-5) both fail; and for every `n ≥ 1`, encode does
not fail. -/
theorem C2_encode_invalid_input :
    (∀ n : Int, n ≤ 0 →
      to_bijective_base6_impl n =
        .error (.invalidInput "Input must be a positive integer") ∧
      to_bijective_base6_cpp n =
        .error (.invalidInput
          "Input must be a positive integer for bijective conversion.")) ∧
    (∀ n : Int, 1 ≤ n →
      (∃ s, to_bijective_base6_impl n = .ok s) ∧
      ∃ s, to_bijective_base6_cpp n = .ok s) := by
  constructor
  · intro n hn
    rw [to_bijective_base6_impl, if_pos hn, to_bijective_base6_cpp, if_pos hn]
    exact ⟨rfl, rfl⟩
  · intro n hn
    exact ⟨⟨_, to_impl_ok n hn⟩, ⟨_, to_cpp_ok n hn⟩⟩

/-- Witness for C2 (amended) at `n = -5` and `n = 7`. -/
theorem C2_encode_invalid_input_w :
    (to_bijective_base6_impl (-5) =
      .error (.invalidInput "Input must be a positive integer") ∧
     to_bijective_base6_cpp (-5) =
      .error (.invalidInput
        "Input must be a positive integer for bijective conversion.")) ∧
    ((∃ s, to_bijective_base6_impl 7 = .ok s) ∧
     ∃ s, to_bijective_base6_cpp 7 = .ok s) :=
  ⟨C2_encode_invalid_input.1 (-5) (by decide),
   C2_encode_invalid_input.2 7 (by decide)⟩

/-- Claim C3: a string containing a character outside the alphabet
decodes to an `InvalidCharacter` error with no result in both variants
(in particular for "0", "7" and "a1"); conversely, decode never raises
`InvalidCharacter` on a string whose characters are all in the
alphabet. -/
theorem C3_decode_invalid_character :
    (∀ s : String, (∃ c ∈ s.data, charPos c = none) →
      (∃ m, from_bijective_base6_impl s = .error (.invalidCharacter m)) ∧
      ∃ m, from_bijective_base6_cpp s = .error (.invalidCharacter m)) ∧
    (∀ s : String, (∀ c ∈ s.data, (charPos c).isSome) →
      (∀ m, from_bijective_base6_impl s ≠ .error (.invalidCharacter m)) ∧
      ∀ m, from_bijective_base6_cpp s ≠ .error (.invalidCharacter m)) ∧
    ((∃ m, from_bijective_base6_impl "0" = .error (.invalidCharacter m)) ∧
     (∃ m, from_bijective_base6_cpp "0" = .error (.invalidCharacter m)) ∧
     (∃ m, from_bijective_base6_impl "7" = .error (.invalidCharacter m)) ∧
     (∃ m, from_bijective_base6_cpp "7" = .error (.invalidCharacter m)) ∧
     (∃ m, from_bijective_base6_impl "a1" = .error (.invalidCharacter m)) ∧
     ∃ m, from_bijective_base6_cpp "a1" = .error (.invalidCharacter m)) := by
  refine ⟨?_, ?_, ?_⟩
  · intro s hs
    have hne : s.data ≠ [] := by
      rcases hs with ⟨c, hc, _⟩
      intro hnil
      rw [hnil] at hc
      cases hc
    constructor
    · exact ⟨_, decodeLoop_bad s.data 0 hs⟩
    · rw [from_cpp_of_ne_nil s hne]
      exact ⟨_, decodeLoopCpp_bad s.data 0 hs⟩
  · intro s hs
    constructor
    · obtain ⟨r, hr⟩ := decodeLoop_good s.data 0 hs
      intro m hm
      rw [show from_bijective_base6_impl s = decodeLoop 0 s.data from rfl, hr] at hm
      cases hm
    · intro m hm
      cases hd : s.data with
      | nil =>
        rw [from_bijective_base6_cpp, hd] at hm
        cases hm
      | cons c cs =>
        obtain ⟨r, hr⟩ := decodeLoopCpp_good s.data 0 hs
        rw [from_cpp_of_ne_nil s (by rw [hd]; exact List.cons_ne_nil c cs), hr] at hm
        cases hm
  · exact ⟨⟨_, rfl⟩, ⟨_, rfl⟩, ⟨_, rfl⟩, ⟨_, rfl⟩, ⟨_, rfl⟩, ⟨_, rfl⟩⟩

/-- Witness for C3 at the strings "a1" (invalid) and "16" (valid). -/
theorem C3_decode_invalid_character_w :
    ((∃ m, from_bijective_base6_impl "a1" = .error (.invalidCharacter m)) ∧
     ∃ m, from_bijective_base6_cpp "a1" = .error (.invalidCharacter m)) ∧
    ((∀ m, from_bijective_base6_impl "16" ≠ .error (.invalidCharacter m)) ∧
     ∀ m, from_bijective_base6_cpp "16" ≠ .error (.invalidCharacter m)) :=
  ⟨C3_decode_invalid_character.1 "a1" (by decide),
   C3_decode_invalid_character.2.1 "16" (by decide)⟩

/-- Claim C4: the boundary values hold in both directions and in both
variants: encode maps 1, 6, 7, 12, 13 to "1", "6", "11", "16", "21", and
decode maps "1", "6", "11", "16" to 1, 6, 7, 12. -/
theorem C4_boundary :
    to_bijective_base6_impl 1 = .ok "1" ∧ to_bijective_base6_impl 6 = .ok "6" ∧
    to_bijective_base6_impl 7 = .ok "11" ∧ to_bijective_base6_impl 12 = .ok "16" ∧
    to_bijective_base6_impl 13 = .ok "21" ∧
    to_bijective_base6_cpp 1 = .ok "1" ∧ to_bijective_base6_cpp 6 = .ok "6" ∧
    to_bijective_base6_cpp 7 = .ok "11" ∧ to_bijective_base6_cpp 12 = .ok "16" ∧
    to_bijective_base6_cpp 13 = .ok "21" ∧
    from_bijective_base6_impl "1" = .ok 1 ∧ from_bijective_base6_impl "6" = .ok 6 ∧
    from_bijective_base6_impl "11" = .ok 7 ∧ from_bijective_base6_impl "16" = .ok 12 ∧
    from_bijective_base6_cpp "1" = .ok 1 ∧ from_bijective_base6_cpp "6" = .ok 6 ∧
    from_bijective_base6_cpp "11" = .ok 7 ∧ from_bijective_base6_cpp "16" = .ok 12 := by
  decide

theorem codeVal_shortlex_of_lt (L1 L2 : List Char)
    (hv1 : ∀ c ∈ L1, (charPos c).isSome) (hv2 : ∀ c ∈ L2, (charPos c).isSome)
    (hlt : codeVal L1 < codeVal L2) : shortlexLtb L1 L2 = true := by
  rcases Nat.lt_trichotomy L1.length L2.length with hl | hl | hl
  · rw [shortlexLtb, Bool.or_eq_true]
    left
    exact decide_eq_true hl
  · have hne : L1 ≠ L2 := by
      intro he
      rw [he] at hlt
      omega
    rcases lexLtb_total L1 L2 hl hne with ht | ht
    · rw [shortlexLtb, Bool.or_eq_true]
      right
      rw [Bool.and_eq_true]
      exact ⟨beq_iff_eq.mpr hl, ht⟩
    · have := lexLtb_strictMono L2 L1 hl.symm hv2 hv1 ht
      omega
  · have hs : shortlexLtb L2 L1 = true := by
      rw [shortlexLtb, Bool.or_eq_true]
      left
      exact decide_eq_true hl
    have := codeVal_shortlex_mono L2 L1 hv2 hv1 hs
    omega

/-- Claim C5 as stated is false at the concrete input "": decode in
`mymath.cpp` returns 0 for the empty string while decode in
`mymath_cpp.cpp` fails, so the two variants do not return the same result
on every input string. -/
theorem C5_cex :
    sameOutcome (from_bijective_base6_impl "") (from_bijective_base6_cpp "") = false := by
  decide

/-- Claim C5 (amended): for every input integer the two encode variants
return the same result (same string on success, failure in the same
cases), and for every NON-EMPTY input string the two decode variants
return the same result; they differ on the empty string only. -/
theorem C5_variants_agree :
    (∀ n : Int,
      sameOutcome (to_bijective_base6_impl n) (to_bijective_base6_cpp n) = true) ∧
    ∀ s : String, s ≠ "" →
      sameOutcome (from_bijective_base6_impl s) (from_bijective_base6_cpp s) = true := by
  constructor
  · intro n
    by_cases hn : n ≤ 0
    · rw [to_bijective_base6_impl, if_pos hn, to_bijective_base6_cpp, if_pos hn]
      rfl
    · rw [to_impl_ok n (by omega), to_cpp_ok n (by omega)]
      simp [sameOutcome]
  · intro s hs
    have hd := data_ne_nil_of_ne_empty s hs
    rw [show from_bijective_base6_impl s = decodeLoop 0 s.data from rfl,
      from_cpp_of_ne_nil s hd]
    exact decodeLoop_cpp_agree s.data 0

/-- Witness for C5 (amended) at `n = 5` and `s = "12"`. -/
theorem C5_variants_agree_w :
    sameOutcome (to_bijective_base6_impl 5) (to_bijective_base6_cpp 5) = true ∧
    sameOutcome (from_bijective_base6_impl "12") (from_bijective_base6_cpp "12") = true :=
  ⟨C5_variants_agree.1 5, C5_variants_agree.2 "12" (by decide)⟩

/-- Claim C6: for all integers `1 ≤ n1 < n2`, the code of `n1` is
strictly below the code of `n2` in the shortlex order (shorter length
first, then symbol order within equal length), in both variants. -/
theorem C6_shortlex_mono (n1 n2 : Int) (h1 : 1 ≤ n1) (h12 : n1 < n2) :
    ∃ s1 s2 : String,
      to_bijective_base6_impl n1 = .ok s1 ∧ to_bijective_base6_impl n2 = .ok s2 ∧
      to_bijective_base6_cpp n1 = .ok s1 ∧ to_bijective_base6_cpp n2 = .ok s2 ∧
      shortlexLtb s1.data s2.data = true := by
  have h2 : 1 ≤ n2 := by omega
  refine ⟨String.mk (encodeLoop n1.toNat).reverse,
    String.mk (encodeLoop n2.toNat).reverse,
    to_impl_ok n1 h1, to_impl_ok n2 h2, to_cpp_ok n1 h1, to_cpp_ok n2 h2, ?_⟩
  show shortlexLtb (encodeLoop n1.toNat).reverse (encodeLoop n2.toNat).reverse = true
  apply codeVal_shortlex_of_lt _ _ (rev_encode_valid n1.toNat) (rev_encode_valid n2.toNat)
  rw [codeVal_encodeLoop, codeVal_encodeLoop]
  omega

/-- Witness for C6 at `n1 = 3`, `n2 = 9`. -/
theorem C6_shortlex_mono_w :
    ∃ s1 s2 : String,
      to_bijective_base6_impl 3 = .ok s1 ∧ to_bijective_base6_impl 9 = .ok s2 ∧
      to_bijective_base6_cpp 3 = .ok s1 ∧ to_bijective_base6_cpp 9 = .ok s2 ∧
      shortlexLtb s1.data s2.data = true :=
  C6_shortlex_mono 3 9 (by decide) (by decide)

theorem decodeLoop_ok_pos_short (L : List Char) (hne : L ≠ []) (hlen : L.length ≤ 24)
    (r : Int) (h : decodeLoop 0 L = .ok r) : 1 ≤ r := by
  have hv := decodeLoop_ok_valid L 0 r h
  have hcv : codeValAux 0 L = codeVal L := rfl
  have hbound : codeValAux 0 L < 2 ^ 63 := by
    have hu := (codeVal_bounds L hv).2
    have hm : repunitVal L.length ≤ repunitVal 24 := repunit_mono hlen
    have hc : 6 * repunitVal 24 < 2 ^ 63 := by decide
    rw [hcv]
    omega
  have hh := decodeLoop_eq_codeValAux L 0 hv hbound
  rw [show ((0 : Nat) : Int) = 0 from rfl] at hh
  rw [hh] at h
  injection h with h
  have hge := (codeVal_bounds L hv).1
  have hpos : 1 ≤ codeVal L := by
    cases L with
    | nil => exact absurd rfl hne
    | cons c cs =>
      have hr1 : repunitVal (c :: cs).length = 6 * repunitVal cs.length + 1 := by
        rw [List.length_cons, repunitVal]
      omega
  rw [hcv] at h
  omega

set_option maxRecDepth 8000 in
/-- Claim C7 as stated is false: decode in `mymath.cpp` succeeds on the
empty string "" returning 0; and on the 25-character string "66...6" the
64-bit accumulator of both variants overflows and the wrapped value
-2777142511503461582, a non-positive integer, is returned as a
success. -/
theorem C7_cex :
    (from_bijective_base6_impl "" = .ok 0 ∧ ¬ (1 : Int) ≤ 0) ∧
    (from_bijective_base6_impl "6666666666666666666666666" =
        .ok (-2777142511503461582) ∧
      from_bijective_base6_cpp "6666666666666666666666666" =
        .ok (-2777142511503461582) ∧
      ¬ (1 : Int) ≤ -2777142511503461582) := by
  exact ⟨⟨rfl, by decide⟩, by decide, by decide, by decide⟩

/-- Claim C7 (amended): whenever decode succeeds on an input string of at
most 24 characters (so that the 64-bit accumulator cannot wrap), the
returned value is a positive integer (`≥ 1`) — in the `mymath_cpp.cpp`
variant for every such string, in the `mymath.cpp` variant for every such
non-empty string.  On the empty string the `mymath.cpp` variant succeeds
with 0, and on longer strings the accumulator can wrap to a non-positive
value that is returned as a success. -/
theorem C7_decode_positive (s : String) (hlen : s.data.length ≤ 24) :
    (∀ r : Int, from_bijective_base6_cpp s = .ok r → 1 ≤ r) ∧
    (s ≠ "" → ∀ r : Int, from_bijective_base6_impl s = .ok r → 1 ≤ r) := by
  constructor
  · intro r hr
    cases hd : s.data with
    | nil =>
      rw [from_bijective_base6_cpp, hd] at hr
      cases hr
    | cons c cs =>
      rw [from_cpp_of_ne_nil s (by rw [hd]; exact List.cons_ne_nil c cs), hd] at hr
      exact decodeLoop_ok_pos_short (c :: cs) (List.cons_ne_nil c cs)
        (by rw [← hd]; exact hlen) r (decodeLoopCpp_ok _ 0 r hr)
  · intro hs r hr
    have hd := data_ne_nil_of_ne_empty s hs
    rw [show from_bijective_base6_impl s = decodeLoop 0 s.data from rfl] at hr
    exact decodeLoop_ok_pos_short s.data hd hlen r hr

/-- Witness for C7 (amended) at the strings "3" and "4". -/
theorem C7_decode_positive_w : (1 : Int) ≤ 3 ∧ (1 : Int) ≤ 4 :=
  ⟨(C7_decode_positive "3" (by decide)).1 3 rfl,
   (C7_decode_positive "4" (by decide)).2 (by decide) 4 rfl⟩

/-- Claim C8: for every `n ≥ 1` (in both variants) the code is a
non-empty string over the alphabet 1..6, and encode is injective on
positive integers. -/
theorem C8_encode_wellformed :
    (∀ n : Int, 1 ≤ n → ∃ s : String,
      to_bijective_base6_impl n = .ok s ∧ to_bijective_base6_cpp n = .ok s ∧
      s.data ≠ [] ∧ ∀ c ∈ s.data, c ∈ ALPHABET) ∧
    (∀ n1 n2 : Int, 1 ≤ n1 → 1 ≤ n2 →
      to_bijective_base6_impl n1 = to_bijective_base6_impl n2 → n1 = n2) ∧
    ∀ n1 n2 : Int, 1 ≤ n1 → 1 ≤ n2 →
      to_bijective_base6_cpp n1 = to_bijective_base6_cpp n2 → n1 = n2 := by
  have hinj : ∀ n1 n2 : Int, 1 ≤ n1 → 1 ≤ n2 →
      (encodeLoop n1.toNat).reverse = (encodeLoop n2.toNat).reverse → n1 = n2 := by
    intro n1 n2 hp1 hp2 he
    have e1 := codeVal_encodeLoop n1.toNat
    have e2 := codeVal_encodeLoop n2.toNat
    rw [he] at e1
    omega
  refine ⟨?_, ?_, ?_⟩
  · intro n hn
    refine ⟨String.mk (encodeLoop n.toNat).reverse, to_impl_ok n hn, to_cpp_ok n hn,
      rev_encode_ne_nil n.toNat (by omega), ?_⟩
    intro c hc
    exact strFind_some_mem c ALPHABET (rev_encode_valid n.toNat c hc)
  · intro n1 n2 hp1 hp2 he
    rw [to_impl_ok n1 hp1, to_impl_ok n2 hp2] at he
    injection he with he
    exact hinj n1 n2 hp1 hp2 (congrArg String.data he)
  · intro n1 n2 hp1 hp2 he
    rw [to_cpp_ok n1 hp1, to_cpp_ok n2 hp2] at he
    injection he with he
    exact hinj n1 n2 hp1 hp2 (congrArg String.data he)

/-- Witness for C8 at `n = 8` and the injectivity part at `n1 = n2 = 2`. -/
theorem C8_encode_wellformed_w :
    (∃ s : String,
      to_bijective_base6_impl 8 = .ok s ∧ to_bijective_base6_cpp 8 = .ok s ∧
      s.data ≠ [] ∧ ∀ c ∈ s.data, c ∈ ALPHABET) ∧ (2 : Int) = 2 :=
  ⟨C8_encode_wellformed.1 8 (by decide),
   C8_encode_wellformed.2.1 2 2 (by decide) (by decide) rfl⟩

/-- Claim C9: the two variants resolve empty-string decode differently:
`from_bijective_base6_impl` applied to "" returns 0 without signalling an
error, whereas `from_bijective_base6_cpp` applied to "" fails with the
error "Input string cannot be empty." and returns no value. -/
theorem C9_empty_divergence :
    from_bijective_base6_impl "" = .ok 0 ∧
    from_bijective_base6_cpp "" = .error (.emptyInput "Input string cannot be empty.") :=
  ⟨rfl, rfl⟩

/-- Claim C10: both operations terminate on every input: one encode
iteration replaces the loop variable `m ≥ 1` by `(m - 1) / 6`, which is
strictly smaller (in both variants), and one decode iteration consumes
exactly one character of the finite input (in both variants). -/
theorem C10_termination :
    (∀ m : Nat, 1 ≤ m →
      encodeLoop m = ALPHABET.getD ((m - 1) % 6) ' ' :: encodeLoop ((m - 1) / 6) ∧
      encodeLoopCpp m = ALPHABET.getD ((m - 1) % 6) ' ' :: encodeLoopCpp ((m - 1) / 6) ∧
      (m - 1) / 6 < m) ∧
    ∀ (a : Int) (c : Char) (cs : List Char),
      (charPos c = none ∧
        decodeLoop a (c :: cs) =
          .error (.invalidCharacter "Invalid character in short code")) ∨
      ∃ pos, charPos c = some pos ∧
        decodeLoop a (c :: cs) = decodeLoop (wrap64 (a * 6 + pos + 1)) cs ∧
        decodeLoopCpp a (c :: cs) = decodeLoopCpp (wrap64 (a * 6 + pos + 1)) cs := by
  constructor
  · intro m hm
    match m, hm with
    | m + 1, _ =>
      simp only [Nat.add_sub_cancel]
      exact ⟨encodeLoop_succ m, encodeLoopCpp_succ m, by omega⟩
  · intro a c cs
    cases hcp : charPos c with
    | none =>
      left
      exact ⟨rfl, by rw [decodeLoop, hcp]⟩
    | some pos =>
      right
      exact ⟨pos, rfl, by rw [decodeLoop, hcp], by rw [decodeLoopCpp, hcp]⟩

/-- Witness for C10 at `m = 7`. -/
theorem C10_termination_w :
    encodeLoop 7 = ALPHABET.getD ((7 - 1) % 6) ' ' :: encodeLoop ((7 - 1) / 6) ∧
    encodeLoopCpp 7 = ALPHABET.getD ((7 - 1) % 6) ' ' :: encodeLoopCpp ((7 - 1) / 6) ∧
    (7 - 1) / 6 < 7 :=
  C10_termination.1 7 (by decide)

end Shortlink
